import Mathlib

/-!
Verification development for the FrameConverter front-end (`src/App.tsx`).

The UI state and its handlers (`canConvert`, `startConvert`, `togglePause`,
`cancelConvert`, `toggleFormat`, the compression-quality controls, the auto
output-name effect and the file-picker scan call) are embedded shallowly.
JavaScript strings are modelled as `List Char`, JavaScript numbers as exact
rationals together with the `NaN` / infinity markers that the code observes
through `Number.isFinite` and comparisons.
-/

set_option maxRecDepth 100000
set_option exponentiation.threshold 1100

namespace FrameConverter

/-- JavaScript strings are modelled as lists of characters. -/
abbrev JSString := List Char

/-- Build a model string from a Lean string literal. -/
def js (s : String) : JSString := s.toList

/-- The whitespace characters stripped by `String.prototype.trim` that can
occur in the inputs considered here. -/
def jsWhitespace (c : Char) : Bool :=
  c == ' ' || c == '\t' || c == '\n' || c == '\r' || c == '\x0b' || c == '\x0c'

/-- `String.prototype.trim`: drop whitespace from both ends. -/
def jsTrim (s : JSString) : JSString :=
  ((s.dropWhile jsWhitespace).reverse.dropWhile jsWhitespace).reverse

/-- The result of a JavaScript `Number(...)` conversion: either a finite
value (an exact rational in this model), an infinity, or `NaN`. -/
inductive JSNum where
  | nan
  | posInf
  | negInf
  | fin (q : ℚ)
deriving DecidableEq

/-- `Number.isFinite`. -/
def JSNum.isFinite : JSNum → Bool
  | .fin _ => true
  | _ => false

/-- JavaScript `<=` against a constant; comparisons with `NaN` are false. -/
def JSNum.jle : JSNum → ℚ → Bool
  | .nan, _ => false
  | .posInf, _ => false
  | .negInf, _ => true
  | .fin q, c => q ≤ c

/-- JavaScript `<` against a constant; comparisons with `NaN` are false. -/
def JSNum.jlt : JSNum → ℚ → Bool
  | .nan, _ => false
  | .posInf, _ => false
  | .negInf, _ => true
  | .fin q, c => q < c

/-- JavaScript `>=` against a constant; comparisons with `NaN` are false. -/
def JSNum.jge : JSNum → ℚ → Bool
  | .nan, _ => false
  | .posInf, _ => true
  | .negInf, _ => false
  | .fin q, c => c ≤ q

/-- Value of a decimal digit string read most-significant first (the usual
positional fold; non-digit characters never reach it in this file). -/
def digitsVal (s : JSString) : ℕ :=
  s.foldl (fun a c => a * 10 + (c.toNat - '0'.toNat)) 0

/-- Hexadecimal digit value. -/
def hexDigitVal (c : Char) : Option ℕ :=
  if c.isDigit then some (c.toNat - '0'.toNat)
  else if 'a' ≤ c ∧ c ≤ 'f' then some (c.toNat - 'a'.toNat + 10)
  else if 'A' ≤ c ∧ c ≤ 'F' then some (c.toNat - 'A'.toNat + 10)
  else none

/-- Octal digit value. -/
def octDigitVal (c : Char) : Option ℕ :=
  if '0' ≤ c ∧ c ≤ '7' then some (c.toNat - '0'.toNat) else none

/-- Binary digit value. -/
def binDigitVal (c : Char) : Option ℕ :=
  if c = '0' then some 0 else if c = '1' then some 1 else none

/-- Fold a radix literal body; `none` when some character is not a digit of
the radix. -/
def radixVal (dv : Char → Option ℕ) (base : ℕ) (s : JSString) : Option ℕ :=
  s.foldl
    (fun acc c =>
      match acc, dv c with
      | some a, some d => some (a * base + d)
      | _, _ => none)
    (some 0)

/-- Smallest magnitude at which this model reports a `Number(...)` result as
infinite, mirroring `f64` overflow of huge literals. -/
def f64OverflowBound : ℚ := ((2 ^ 1024 : ℕ) : ℚ)

/-- Largest magnitude that rounds to `0` in `f64`, mirroring underflow of
tiny literals (the rational `1 / 2 ^ 1075`, written as a raw fraction so
that it evaluates without normalization). -/
def f64UnderflowBound : ℚ := ⟨1, 2 ^ 1075, by positivity, Nat.coprime_one_left _⟩

/-- Map an exactly-parsed rational to the `JSNum` a JavaScript `Number(...)`
conversion would produce: magnitudes at or beyond the `f64` range become
infinities, sub-underflow magnitudes become `0`, everything in between is
kept exact. -/
def finAdjust (q : ℚ) : JSNum :=
  if f64OverflowBound ≤ q then .posInf
  else if q ≤ -f64OverflowBound then .negInf
  else if q ≠ 0 ∧ -f64UnderflowBound ≤ q ∧ q ≤ f64UnderflowBound then .fin 0
  else .fin q

/-- Optional exponent tail of a decimal literal (`e`/`E`, optional sign,
digits); anything else trailing makes the whole literal `NaN` (`none`). -/
def expPart (m : ℚ) (r : JSString) : Option ℚ :=
  match r with
  | [] => some m
  | e :: r2 =>
    if e = 'e' ∨ e = 'E' then
      let neg : Bool := r2.take 1 = ['-']
      let r3 := if r2.take 1 = ['+'] ∨ r2.take 1 = ['-'] then r2.drop 1 else r2
      let ed := r3.takeWhile Char.isDigit
      if ed = [] ∨ r3.dropWhile Char.isDigit ≠ [] then none
      else some (m * (10 : ℚ) ^ (if neg then -(digitsVal ed : ℤ) else (digitsVal ed : ℤ)))
    else none

/-- Unsigned decimal literal body: digits, optional `.` and fraction digits
(at least one digit overall), optional exponent; must consume the whole
string. -/
def parseDec (r : JSString) : Option ℚ :=
  let ip := r.takeWhile Char.isDigit
  let r1 := r.dropWhile Char.isDigit
  match r1 with
  | '.' :: r2 =>
    let fp := r2.takeWhile Char.isDigit
    let r3 := r2.dropWhile Char.isDigit
    if ip = [] ∧ fp = [] then none
    else expPart ((digitsVal ip : ℚ) + (digitsVal fp : ℚ) / (10 : ℚ) ^ fp.length) r3
  | _ =>
    if ip = [] then none else expPart (digitsVal ip : ℚ) r1

/-- Signed decimal literal or `Infinity`, after sign extraction. -/
def decBody (neg : Bool) (r : JSString) : JSNum :=
  if r = js "Infinity" then (if neg then .negInf else .posInf)
  else
    match parseDec r with
    | none => .nan
    | some q => finAdjust (if neg then -q else q)

/-- Signed part of a `Number(...)` string conversion. -/
def signedDec (t : JSString) : JSNum :=
  if t.take 1 = ['+'] then decBody false (t.drop 1)
  else if t.take 1 = ['-'] then decBody true (t.drop 1)
  else decBody false t

/-- Radix-prefixed literal (`0x…`, `0o…`, `0b…`): every remaining character
must be a digit of the radix and the body must be non-empty. -/
def radixNum (dv : Char → Option ℕ) (base : ℕ) (r : JSString) : JSNum :=
  if r = [] then .nan
  else
    match radixVal dv base r with
    | none => .nan
    | some n => finAdjust (n : ℚ)

/-- JavaScript `Number(string)` on the string space reachable in this UI:
trim; empty ⇒ `0`; radix prefixes; otherwise optional sign followed by
`Infinity` or a decimal literal; anything else is `NaN`. -/
def jsStrToNum (s : JSString) : JSNum :=
  let t := jsTrim s
  if t = [] then .fin 0
  else if t.take 2 = ['0', 'x'] ∨ t.take 2 = ['0', 'X'] then radixNum hexDigitVal 16 (t.drop 2)
  else if t.take 2 = ['0', 'o'] ∨ t.take 2 = ['0', 'O'] then radixNum octDigitVal 8 (t.drop 2)
  else if t.take 2 = ['0', 'b'] ∨ t.take 2 = ['0', 'B'] then radixNum binDigitVal 2 (t.drop 2)
  else signedDec t

/-- `a || b` on strings: JavaScript falls back to `b` when `a` is the empty
string. -/
def jsOrStr (a b : JSString) : JSString := if a = [] then b else a

/-- Decimal digit characters, used to print natural numbers the way
JavaScript's `toString` and template literals print nonnegative integers. -/
def digitChar : ℕ → Char
  | 0 => '0' | 1 => '1' | 2 => '2' | 3 => '3' | 4 => '4'
  | 5 => '5' | 6 => '6' | 7 => '7' | 8 => '8' | _ => '9'

/-- Fuel-driven digit printer (most significant digit first, no leading
zeros, `0` printed as `"0"`); the fuel is always sufficient at call sites. -/
def natCharsGo : ℕ → ℕ → List Char → List Char
  | 0, _, acc => acc
  | fuel + 1, n, acc =>
    if n < 10 then digitChar n :: acc
    else natCharsGo fuel (n / 10) (digitChar (n % 10) :: acc)

/-- Decimal rendering of a natural number, as JavaScript prints nonnegative
integers. -/
def natChars (n : ℕ) : JSString := natCharsGo (n + 1) n []

/-- `Number.prototype.toString` as used in this file. It is only ever
applied to nonnegative integer values (the quality slider and editor commit
values, which the guards bound by `100`); other rationals do not occur and
are mapped to the empty string. -/
def jsNumToString : JSNum → JSString
  | .fin q => if q.den = 1 ∧ 0 ≤ q.num then natChars q.num.toNat else []
  | _ => []

/-- A scanned frame file (`FrameFileInfo` in `App.tsx`). -/
structure FrameFileInfo where
  path : JSString
  width : ℕ
  height : ℕ
  size : ℕ
deriving DecidableEq

/-- `ScanResult` as the front end receives it. -/
structure ScanResult where
  files : List FrameFileInfo
  total : ℕ
  allSameSize : Bool
  baseSize : Option (ℕ × ℕ)
deriving DecidableEq

/-- `ConvertProgressEvent`. `percent = none` models a payload whose
`percent` field is absent or `NaN`, which the renderer's `|| 0` fallback
turns into `0`. -/
structure ConvertProgressEvent where
  phase : JSString
  current : ℚ
  total : ℚ
  percent : Option ℚ
  format : Option JSString
  file : Option JSString
deriving DecidableEq

/-- `ConvertResult` entries returned by the backend. -/
structure ConvertResult where
  format : JSString
  path : JSString
  success : Bool
  error : Option JSString
  originalSize : Option ℕ
  compressedSize : Option ℕ
deriving DecidableEq

/-- The `useState` fields of the `App` component that the claims concern. -/
structure AppState where
  inputPath : JSString
  inputPaths : List JSString
  isFolder : Bool
  outputDir : JSString
  outputName : JSString
  fps : JSString
  loopCount : JSString
  formats : List JSString
  useLocalCompression : Bool
  compressionQuality : JSString
  isEditingCompression : Bool
  tempCompressionValue : JSString
  scanResult : Option ScanResult
  isConverting : Bool
  isPaused : Bool
  progress : Option ConvertProgressEvent
  results : List ConvertResult
deriving DecidableEq

/-- The initial state of every `useState` hook in `App`. -/
def initialState : AppState where
  inputPath := []
  inputPaths := []
  isFolder := false
  outputDir := []
  outputName := []
  fps := js "30"
  loopCount := js "0"
  formats := [js "apng"]
  useLocalCompression := false
  compressionQuality := js "0"
  isEditingCompression := false
  tempCompressionValue := js "0"
  scanResult := none
  isConverting := false
  isPaused := false
  progress := none
  results := []

/-- `canConvert` (the `useMemo` guard): not converting, an input present for
the current mode, a non-blank output directory, at least one format, and
`fps` / `loopCount` parsing to finite numbers that are respectively positive
and nonnegative. -/
def canConvert (s : AppState) : Bool :=
  !s.isConverting &&
  (if s.isFolder then !(jsTrim s.inputPath).isEmpty
   else (!s.inputPaths.isEmpty || !(jsTrim s.inputPath).isEmpty)) &&
  !(jsTrim s.outputDir).isEmpty &&
  !s.formats.isEmpty &&
  ((jsStrToNum s.fps).isFinite && !(jsStrToNum s.fps).jle 0) &&
  ((jsStrToNum s.loopCount).isFinite && !(jsStrToNum s.loopCount).jlt 0)

/-- The request record `startConvert` submits to `convert_sequence_frames`. -/
structure ConversionRequest where
  inputMode : JSString
  inputPath : JSString
  inputPaths : Option (List JSString)
  outputDir : JSString
  outputName : Option JSString
  fps : JSNum
  loopCount : JSNum
  formats : List JSString
  useLocalCompression : Bool
  compressionQuality : JSNum
deriving DecidableEq

/-- The request `startConvert` builds from the current state (after its
`canConvert` guard); `none` when the guard makes it return immediately. -/
def startConvertRequest (s : AppState) : Option ConversionRequest :=
  if canConvert s then
    some
      { inputMode := if s.isFolder then js "folder" else js "file"
        inputPath := s.inputPath
        inputPaths := if s.isFolder then none else some s.inputPaths
        outputDir := jsTrim s.outputDir
        outputName := if jsTrim s.outputName = [] then none else some (jsTrim s.outputName)
        fps := jsStrToNum s.fps
        loopCount := jsStrToNum s.loopCount
        formats := s.formats
        useLocalCompression := s.useLocalCompression
        compressionQuality := jsStrToNum s.compressionQuality }
  else none

/-- `startConvert` as a state transformer. When the guard fails it returns
before touching any state and invokes nothing. Otherwise it clears the job
fields, invokes the backend with the built request, stores the returned
results (`backendResults = none` models the reject path, whose `catch`
leaves the cleared results in place), and finally resets `isConverting`. -/
def startConvert (s : AppState) (backendResults : Option (List ConvertResult)) :
    AppState × Option ConversionRequest :=
  match startConvertRequest s with
  | none => (s, none)
  | some req =>
    let s1 := { s with isConverting := true, isPaused := false, progress := none, results := [] }
    let s2 :=
      match backendResults with
      | some rs => { s1 with results := rs }
      | none => s1
    ({ s2 with isConverting := false }, some req)

/-- `togglePause`: the backend commands invoked (in order) and the new
`isPaused` value. -/
def togglePause (isPaused : Bool) : List JSString × Bool :=
  if isPaused then ([js "resume_conversion"], false)
  else ([js "pause_conversion"], true)

/-- `cancelConvert`: invokes `cancel_conversion` and clears the job-progress
state. -/
def cancelConvert (s : AppState) : AppState × JSString :=
  ({ s with isConverting := false, isPaused := false, progress := none },
   js "cancel_conversion")

/-- `toggleFormat`: remove the format if present, else append it. -/
def toggleFormat (format : JSString) (prev : List JSString) : List JSString :=
  if prev.contains format then prev.filter (fun f => f ≠ format)
  else prev ++ [format]

/-- Arguments of an invocation of the `scan_frame_files` command. -/
structure ScanCall where
  inputMode : JSString
  inputPath : JSString
  inputPaths : Option (List JSString)
deriving DecidableEq

/-- `scanFiles`: the guard clauses and the scan invocation it makes
(`none` when it returns without invoking). -/
def scanFiles (currentInputPath : JSString) (currentInputPaths : List JSString)
    (currentIsFolder : Bool) : Option ScanCall :=
  if currentIsFolder ∧ jsTrim currentInputPath = [] then none
  else if ¬currentIsFolder ∧ currentInputPaths = [] ∧ jsTrim currentInputPath = [] then none
  else
    some
      { inputMode := if currentIsFolder then js "folder" else js "file"
        inputPath := currentInputPath
        inputPaths := if ¬currentIsFolder then some currentInputPaths else none }

/-- First-occurrence deduplication: the effect of
`Array.from(new Set(filesRaw))` (JavaScript `Set` iteration follows
insertion order). -/
def dedupFirstAux : List JSString → List JSString → List JSString
  | [], _ => []
  | x :: xs, seen =>
    if x ∈ seen then dedupFirstAux xs seen else x :: dedupFirstAux xs (x :: seen)

/-- `Array.from(new Set(l))` on a list of strings. -/
def dedupFirst (l : List JSString) : List JSString := dedupFirstAux l []

/-- `pickInput` after the dialog returned the path list `picked`: the files
are deduplicated and, when non-empty, stored and scanned; the result is the
scan invocation made (if any). -/
def pickInputScan (picked : List JSString) : Option ScanCall :=
  let files := dedupFirst picked
  if files ≠ [] then scanFiles (jsOrStr (files.headD []) []) files false else none

/-- Separator test of the regular expression split in `getBaseName`. -/
def isSep (c : Char) : Bool := c == '/' || c == '\\'

/-- `path.split(/[/\\]/)` (a split on every separator occurrence; adjacent
separators contribute empty parts, and the result is never empty: a
separator prepends an empty part, any other character extends the first
part). -/
def splitSeps : JSString → List JSString
  | [] => [[]]
  | c :: rest =>
    if isSep c then [] :: splitSeps rest
    else (c :: (splitSeps rest).headD []) :: (splitSeps rest).tail

/-- Character class `[^/.]` of the extension-stripping regular expression. -/
def extChar (c : Char) : Bool := !(c == '.' || c == '/')

/-- `replace(/\.[^/.]+$/, '')`: drop a final `.ext` whose extension is a
non-empty run of characters other than `.` and `/` (the greedy run of
`extChar` characters at the end, which must be preceded by a `.`). -/
def stripExt (s : JSString) : JSString :=
  if s.reverse.takeWhile extChar ≠ [] ∧ (s.reverse.dropWhile extChar).take 1 = ['.'] then
    ((s.reverse.dropWhile extChar).drop 1).reverse
  else s

/-- `replace(/[_-]\d+$/, '')`: drop one final `_`- or `-`-prefixed run of
digits (the greedy digit run at the end, preceded by `_` or `-`). -/
def stripSeq (s : JSString) : JSString :=
  if s.reverse.takeWhile Char.isDigit ≠ [] ∧
      ((s.reverse.dropWhile Char.isDigit).take 1 = ['_'] ∨
       (s.reverse.dropWhile Char.isDigit).take 1 = ['-']) then
    ((s.reverse.dropWhile Char.isDigit).drop 1).reverse
  else s

/-- `getBaseName`: last path component (falling back to the whole path when
that component is empty), extension removed, then one trailing sequence
suffix removed. -/
def getBaseName (path : JSString) : JSString :=
  stripSeq (stripExt (jsOrStr (((splitSeps path).getLast?).getD []) path))

/-- The auto-naming `useEffect`: whenever a scan result with a `baseSize` is
present, derive `{base}_{w}x{h}` from the first input and store it in
`outputName`; otherwise leave the state alone. -/
def autoNameEffect (s : AppState) : AppState :=
  match s.scanResult with
  | some sc =>
    match sc.baseSize with
    | some wh =>
      let baseName :=
        if s.isFolder then getBaseName s.inputPath
        else getBaseName (jsOrStr (s.inputPaths.headD []) s.inputPath)
      { s with outputName :=
          baseName ++ '_' :: (natChars wh.1 ++ 'x' :: natChars wh.2) }
    | none => s
  | none => s

/-- `x || 0` on an optional numeric field: absent (or `NaN`) and `0` both
fall back to `0`. -/
def jsOrZero : Option ℚ → ℚ
  | none => 0
  | some v => v

/-- Width (in percent) of the rendered progress bar:
`Math.min(progress.percent || 0, 100)`. -/
def progressBarWidth (p : ConvertProgressEvent) : ℚ :=
  min (jsOrZero p.percent) 100

/-- `Math.round` on the values reachable here. -/
def jsRound (q : ℚ) : ℤ := ⌊q + 1 / 2⌋

/-- The numeric percentage text: `Math.round(progress.percent || 0)`. -/
def progressPercentText (p : ConvertProgressEvent) : ℤ :=
  jsRound (jsOrZero p.percent)

/-- Whether the `({current} / {total})` pair is rendered:
`progress.total > 0 && …`. -/
def showsFraction (p : ConvertProgressEvent) : Bool :=
  decide (0 < p.total)

/-- Modelled from the spec: the backend (not part of `src/`) emits progress
events whose `percent` is recomputed as `current/total*100` clamped to
`[0,100]`; `none` additionally covers a missing or `NaN` field, which the
renderer's `|| 0` fallback handles. -/
def ProgressEventWellFormed (p : ConvertProgressEvent) : Prop :=
  ∀ v : ℚ, p.percent = some v → 0 ≤ v ∧ v ≤ 100

/-- The three format checkboxes rendered by the component. -/
def supportedFormats : List JSString := [js "apng", js "webp", js "gif"]

/-- A sequence of checkbox toggles applied to a starting formats list. -/
def runToggles (evs : List JSString) (init : List JSString) : List JSString :=
  evs.foldl (fun acc f => toggleFormat f acc) init

/-- The slice of `AppState` the compression controls read and write. -/
structure CompState where
  compressionQuality : JSString
  tempCompressionValue : JSString
  isEditingCompression : Bool
deriving DecidableEq

/-- Initial values of the compression-control state. -/
def initComp : CompState where
  compressionQuality := js "0"
  tempCompressionValue := js "0"
  isEditingCompression := false

/-- The shared commit path of the inline editor (`onBlur`, and `Enter` in
`onKeyDown`): parse the draft; in range, store `'0'` for zero and
`num.toString()` otherwise; out of range, revert the draft; either way stop
editing. -/
def commitEditor (st : CompState) : CompState :=
  if (jsStrToNum st.tempCompressionValue).jge 0 ∧
      (jsStrToNum st.tempCompressionValue).jle 100 then
    { st with
      compressionQuality :=
        if jsStrToNum st.tempCompressionValue = .fin 0 then js "0"
        else jsNumToString (jsStrToNum st.tempCompressionValue)
      isEditingCompression := false }
  else
    { st with tempCompressionValue := st.compressionQuality, isEditingCompression := false }

/-- User interactions with the compression controls. -/
inductive CompEvent where
  | slider (n : ℕ)
  | clickToEdit
  | editorInput (raw : JSString)
  | editorBlur
  | editorEnter
  | editorEscape
deriving DecidableEq

/-- One step of the compression controls. The slider stores
`Number(e.target.value).toString()` where the range input's value string is
the decimal rendering of its (DOM-clamped) integer position; the editor's
`onChange` filters the keystroke to digits and accepts it only when empty or
within `[0,100]`; `Escape` reverts the draft. -/
def compStep (st : CompState) : CompEvent → CompState
  | .slider n =>
    { st with compressionQuality := jsNumToString (jsStrToNum (natChars n)) }
  | .clickToEdit =>
    { st with tempCompressionValue := st.compressionQuality, isEditingCompression := true }
  | .editorInput raw =>
    if raw.filter Char.isDigit = [] ∨
        ((jsStrToNum (raw.filter Char.isDigit)).jge 0 ∧
         (jsStrToNum (raw.filter Char.isDigit)).jle 100) then
      { st with tempCompressionValue := raw.filter Char.isDigit }
    else st
  | .editorBlur => commitEditor st
  | .editorEnter => commitEditor st
  | .editorEscape =>
    { st with tempCompressionValue := st.compressionQuality, isEditingCompression := false }

/-- The slider event's value is clamped to the range input's
`min="0" max="100"` by the DOM. -/
def sliderOk : CompEvent → Bool
  | .slider n => n ≤ 100
  | _ => true

/-- Run a sequence of compression-control interactions from the initial
state. -/
def runComp (evs : List CompEvent) : CompState :=
  evs.foldl compStep initComp

/-- The claimed invariant: the stored quality is a non-empty decimal digit
string whose value is at most `100`. -/
def qualityInvariant (st : CompState) : Bool :=
  !st.compressionQuality.isEmpty &&
  st.compressionQuality.all Char.isDigit &&
  digitsVal st.compressionQuality ≤ 100

/-- The spec's `compressionQuality: u8 (1..=100)` range test. -/
def qualityInSpecRange : JSNum → Bool
  | .fin q => 1 ≤ q ∧ q ≤ 100
  | _ => false

/-- A state from which `canConvert` holds: an input file, an output
directory, and otherwise the initial settings. -/
def convertibleState : AppState :=
  { initialState with
    inputPath := js "/a.png"
    inputPaths := [js "/a.png"]
    outputDir := js "/out" }

/-- `convertibleState` while a conversion is already running. -/
def busyState : AppState :=
  { convertibleState with isConverting := true }

/-- The request `startConvert` builds from `convertibleState`. -/
def convertibleRequest : ConversionRequest where
  inputMode := js "file"
  inputPath := js "/a.png"
  inputPaths := some [js "/a.png"]
  outputDir := js "/out"
  outputName := none
  fps := .fin 30
  loopCount := .fin 0
  formats := [js "apng"]
  useLocalCompression := false
  compressionQuality := .fin 0

/-- A state in which the user has typed an output name and a uniform-size
scan result has arrived. -/
def userNamedState : AppState :=
  { initialState with
    inputPath := js "/frames/frame_0001.png"
    inputPaths := [js "/frames/frame_0001.png"]
    outputName := js "myName"
    scanResult := some
      { files := [⟨js "/frames/frame_0001.png", 3, 4, 120⟩]
        total := 1
        allSameSize := true
        baseSize := some (3, 4) } }

/-- A progress event as the backend emits mid-encode. -/
def pEvent50 : ConvertProgressEvent where
  phase := js "Encoding frames"
  current := 5
  total := 10
  percent := some 50
  format := some (js "apng")
  file := none

/-- Induction invariant for the compression controls: the stored quality is
a non-empty digit string valued at most `100`, and the editor draft is a
digit string. -/
def CompInv (st : CompState) : Prop :=
  st.compressionQuality ≠ [] ∧
  (∀ c ∈ st.compressionQuality, c.isDigit = true) ∧
  digitsVal st.compressionQuality ≤ 100 ∧
  (∀ c ∈ st.tempCompressionValue, c.isDigit = true)

/-! ### List and digit helper lemmas -/

theorem dropWhile_eq_self_of_none {p : Char → Bool} {l : JSString}
    (h : ∀ c ∈ l, p c = false) : l.dropWhile p = l := by
  cases l with
  | nil => rfl
  | cons a l => simp [List.dropWhile_cons, h a (by simp)]

theorem jsTrim_of_no_ws {s : JSString} (h : ∀ c ∈ s, jsWhitespace c = false) :
    jsTrim s = s := by
  unfold jsTrim
  rw [dropWhile_eq_self_of_none h,
    dropWhile_eq_self_of_none (fun c hc => h c (List.mem_reverse.mp hc)),
    List.reverse_reverse]

theorem digit_not_ws (c : Char) (h : c.isDigit = true) : jsWhitespace c = false := by
  cases hw : jsWhitespace c
  · rfl
  · exfalso
    unfold jsWhitespace at hw
    simp only [Bool.or_eq_true, beq_iff_eq] at hw
    rcases hw with ((((rfl | rfl) | rfl) | rfl) | rfl) | rfl <;> exact absurd h (by decide)

theorem takeWhile_eq_self_of_all {p : Char → Bool} {l : JSString}
    (h : ∀ c ∈ l, p c = true) : l.takeWhile p = l := by
  induction l with
  | nil => rfl
  | cons a l ih =>
    simp [List.takeWhile_cons, h a (by simp), ih fun c hc => h c (by simp [hc])]

theorem dropWhile_eq_nil_of_all {p : Char → Bool} {l : JSString}
    (h : ∀ c ∈ l, p c = true) : l.dropWhile p = [] := by
  induction l with
  | nil => rfl
  | cons a l ih =>
    simp [List.dropWhile_cons, h a (by simp), ih fun c hc => h c (by simp [hc])]

theorem take_two_ne {s : JSString} (h : ∀ c ∈ s, c.isDigit = true)
    {x : Char} (hx : x.isDigit = false) (a : Char) : s.take 2 ≠ [a, x] := by
  intro he
  have hmem : x ∈ s := List.take_subset 2 s (by rw [he]; simp)
  rw [h x hmem] at hx
  cases hx

theorem take_one_ne {s : JSString} (h : ∀ c ∈ s, c.isDigit = true)
    {x : Char} (hx : x.isDigit = false) : s.take 1 ≠ [x] := by
  intro he
  have hmem : x ∈ s := List.take_subset 1 s (by rw [he]; simp)
  rw [h x hmem] at hx
  cases hx

theorem f64UnderflowBound_lt_one : f64UnderflowBound < 1 := by decide

/-- `digitsVal` of a list with one more digit appended. -/
theorem digitsVal_append_singleton (l : JSString) (c : Char) :
    digitsVal (l ++ [c]) = digitsVal l * 10 + (c.toNat - '0'.toNat) := by
  unfold digitsVal
  rw [List.foldl_append]
  rfl

theorem digitChar_isDigit (d : ℕ) : (digitChar d).isDigit = true := by
  unfold digitChar
  split <;> decide

theorem digitChar_val {d : ℕ} (h : d < 10) : (digitChar d).toNat - '0'.toNat = d := by
  interval_cases d <;> decide

theorem natCharsGo_spec (fuel : ℕ) :
    ∀ (n : ℕ) (acc : List Char), n < 10 ^ (fuel + 1) →
      ∃ ds : List Char, natCharsGo (fuel + 1) n acc = ds ++ acc ∧ ds ≠ [] ∧
        (∀ c ∈ ds, c.isDigit = true) ∧ digitsVal ds = n := by
  induction fuel with
  | zero =>
    intro n acc hn
    have h10 : n < 10 := by simpa using hn
    refine ⟨[digitChar n], ?_, by simp, ?_, ?_⟩
    · simp [natCharsGo, h10]
    · intro c hc
      rw [List.mem_singleton.mp hc]
      exact digitChar_isDigit n
    · show digitsVal ([] ++ [digitChar n]) = n
      rw [digitsVal_append_singleton]
      simpa [digitsVal] using digitChar_val h10
  | succ fuel ih =>
    intro n acc hn
    by_cases h10 : n < 10
    · refine ⟨[digitChar n], ?_, by simp, ?_, ?_⟩
      · simp [natCharsGo, h10]
      · intro c hc
        rw [List.mem_singleton.mp hc]
        exact digitChar_isDigit n
      · show digitsVal ([] ++ [digitChar n]) = n
        rw [digitsVal_append_singleton]
        simpa [digitsVal] using digitChar_val h10
    · have hdiv : n / 10 < 10 ^ (fuel + 1) := by
        rw [Nat.div_lt_iff_lt_mul (by norm_num)]
        calc n < 10 ^ (fuel + 1 + 1) := hn
        _ = 10 ^ (fuel + 1) * 10 := by ring
      obtain ⟨ds, hds, hne, hdig, hval⟩ := ih (n / 10) (digitChar (n % 10) :: acc) hdiv
      refine ⟨ds ++ [digitChar (n % 10)], ?_, by simp, ?_, ?_⟩
      · rw [show natCharsGo (fuel + 1 + 1) n acc
            = natCharsGo (fuel + 1) (n / 10) (digitChar (n % 10) :: acc) by
              simp [natCharsGo, h10]]
        rw [hds]
        simp
      · intro c hc
        rcases List.mem_append.mp hc with hc | hc
        · exact hdig c hc
        · rw [List.mem_singleton.mp hc]
          exact digitChar_isDigit _
      · rw [digitsVal_append_singleton, hval, digitChar_val (Nat.mod_lt n (by norm_num))]
        omega

theorem natChars_spec (n : ℕ) :
    natChars n ≠ [] ∧ (∀ c ∈ natChars n, c.isDigit = true) ∧ digitsVal (natChars n) = n := by
  have hlt : n < 10 ^ (n + 1) :=
    lt_of_lt_of_le (Nat.lt_pow_self (by norm_num) n)
      (Nat.pow_le_pow_right (by norm_num) (Nat.le_succ n))
  obtain ⟨ds, hds, hne, hdig, hval⟩ := natCharsGo_spec n n [] hlt
  unfold natChars
  rw [hds, List.append_nil]
  exact ⟨hne, hdig, hval⟩

/-- Evaluation of the JavaScript `Number(...)` model on all-digit strings:
the positional value, overflowing to `+∞` past the `f64` range. -/
theorem jsStrToNum_of_digits {s : JSString} (h : ∀ c ∈ s, c.isDigit = true) :
    jsStrToNum s = if digitsVal s < 2 ^ 1024 then .fin (digitsVal s) else .posInf := by
  have htrim : jsTrim s = s := jsTrim_of_no_ws (fun c hc => digit_not_ws c (h c hc))
  cases s with
  | nil =>
    simp [jsStrToNum, jsTrim, digitsVal, Nat.pos_pow_of_pos]
  | cons a s0 =>
    unfold jsStrToNum
    simp only [htrim]
    rw [if_neg (by simp)]
    rw [if_neg (by
      rintro (hw | hw) <;> exact take_two_ne h (by decide) _ hw)]
    rw [if_neg (by
      rintro (hw | hw) <;> exact take_two_ne h (by decide) _ hw)]
    rw [if_neg (by
      rintro (hw | hw) <;> exact take_two_ne h (by decide) _ hw)]
    unfold signedDec
    rw [if_neg (take_one_ne h (by decide)), if_neg (take_one_ne h (by decide))]
    unfold decBody
    rw [if_neg (by
      intro hw
      have : 'I' ∈ (a :: s0) := by rw [hw]; decide
      have := h _ this
      exact absurd this (by decide))]
    have hip : (a :: s0).takeWhile Char.isDigit = a :: s0 := takeWhile_eq_self_of_all h
    have hr1 : (a :: s0).dropWhile Char.isDigit = [] := dropWhile_eq_nil_of_all h
    unfold parseDec
    rw [hip, hr1]
    simp only [reduceCtorEq, if_neg (by simp : ¬(a :: s0) = [])]
    show (match expPart ((digitsVal (a :: s0) : ℚ)) [] with
      | none => JSNum.nan
      | some q => finAdjust (if false then -q else q)) =
      if digitsVal (a :: s0) < 2 ^ 1024 then JSNum.fin (digitsVal (a :: s0)) else JSNum.posInf
    show finAdjust (if false then -(digitsVal (a :: s0) : ℚ) else (digitsVal (a :: s0) : ℚ)) = _
    rw [if_neg (by simp)]
    generalize digitsVal (a :: s0) = v
    unfold finAdjust
    by_cases hv : v < 2 ^ 1024
    · rw [if_pos hv]
      rw [if_neg (by
        rw [f64OverflowBound]
        intro hle
        exact absurd (Nat.cast_le.mp hle) (by omega))]
      rw [if_neg (by
        intro hle
        have h1 : (0 : ℚ) ≤ (v : ℚ) := Nat.cast_nonneg v
        have h2 : (0 : ℚ) < f64OverflowBound := by
          rw [f64OverflowBound]
          positivity
        linarith)]
      by_cases hz : v = 0
      · subst hz
        rw [if_neg (by
          rintro ⟨hq, -, -⟩
          exact hq (by norm_num))]
      · rw [if_neg (by
          rintro ⟨-, -, hq⟩
          have h1 : (1 : ℚ) ≤ (v : ℚ) := by
            exact_mod_cast Nat.one_le_iff_ne_zero.mpr hz
          linarith [f64UnderflowBound_lt_one])]
    · rw [if_neg hv]
      rw [if_pos (by
        rw [f64OverflowBound]
        exact Nat.cast_le.mpr (by omega))]

/-! ### Format-toggle lemmas -/

theorem contains_eq_true_iff (l : List JSString) (a : JSString) :
    l.contains a = true ↔ a ∈ l := by
  induction l with
  | nil => simp
  | cons b l ih => simp [List.contains_cons, ih]

theorem toggleFormat_of_mem {f : JSString} {l : List JSString} (h : f ∈ l) :
    toggleFormat f l = l.filter (fun g => g ≠ f) := by
  unfold toggleFormat
  rw [if_pos ((contains_eq_true_iff l f).mpr h)]

theorem toggleFormat_of_not_mem {f : JSString} {l : List JSString} (h : f ∉ l) :
    toggleFormat f l = l ++ [f] := by
  unfold toggleFormat
  rw [if_neg (fun hw => h ((contains_eq_true_iff l f).mp hw))]

theorem toggleFormat_twice_mem (f : JSString) (l : List JSString) (x : JSString) :
    x ∈ toggleFormat f (toggleFormat f l) ↔ x ∈ l := by
  by_cases hc : f ∈ l
  · rw [toggleFormat_of_mem hc,
      toggleFormat_of_not_mem (by simp [List.mem_filter])]
    constructor
    · intro hx
      rcases List.mem_append.mp hx with hx | hx
      · exact List.mem_of_mem_filter hx
      · rw [List.mem_singleton.mp hx]
        exact hc
    · intro hx
      by_cases hxf : x = f
      · exact List.mem_append.mpr (Or.inr (by simp [hxf]))
      · refine List.mem_append.mpr (Or.inl (List.mem_filter.mpr ⟨hx, ?_⟩))
        simpa using hxf
  · rw [toggleFormat_of_not_mem hc, toggleFormat_of_mem (by simp)]
    constructor
    · intro hx
      have hmem := List.mem_of_mem_filter hx
      rcases List.mem_append.mp hmem with h | h
      · exact h
      · exfalso
        have hpred := List.of_mem_filter hx
        simp only [decide_eq_true_eq] at hpred
        exact hpred (List.mem_singleton.mp h)
    · intro hx
      refine List.mem_filter.mpr ⟨List.mem_append.mpr (Or.inl hx), ?_⟩
      simp only [decide_eq_true_eq]
      exact fun hxf => hc (hxf ▸ hx)

theorem toggleFormat_nodup {f : JSString} {l : List JSString} (h : l.Nodup) :
    (toggleFormat f l).Nodup := by
  by_cases hc : f ∈ l
  · rw [toggleFormat_of_mem hc]
    exact h.filter _
  · rw [toggleFormat_of_not_mem hc]
    simp [List.nodup_append, h, hc]

theorem toggleFormat_subset {f : JSString} {l sup : List JSString}
    (hl : ∀ x ∈ l, x ∈ sup) (hf : f ∈ sup) : ∀ x ∈ toggleFormat f l, x ∈ sup := by
  intro x hx
  by_cases hc : f ∈ l
  · rw [toggleFormat_of_mem hc] at hx
    exact hl x (List.mem_of_mem_filter hx)
  · rw [toggleFormat_of_not_mem hc] at hx
    rcases List.mem_append.mp hx with hx | hx
    · exact hl x hx
    · rw [List.mem_singleton.mp hx]
      exact hf

theorem runToggles_inv (sup : List JSString) :
    ∀ (evs acc : List JSString), acc.Nodup → (∀ x ∈ acc, x ∈ sup) →
      (∀ e ∈ evs, e ∈ sup) →
      (runToggles evs acc).Nodup ∧ ∀ x ∈ runToggles evs acc, x ∈ sup := by
  intro evs
  induction evs with
  | nil =>
    intro acc h1 h2 _
    exact ⟨h1, h2⟩
  | cons e evs ih =>
    intro acc h1 h2 h3
    have he : e ∈ sup := h3 e (by simp)
    exact ih (toggleFormat e acc) (toggleFormat_nodup h1)
      (toggleFormat_subset h2 he) (fun x hx => h3 x (by simp [hx]))

/-! ### Claim theorems -/

/-- C1: while a conversion is running (`isConverting = true`), `canConvert`
is false and `startConvert` returns immediately: no request is submitted to
the `convert_sequence_frames` command and no state field changes. -/
theorem start_rejected_while_converting (s : AppState)
    (resp : Option (List ConvertResult)) (h : s.isConverting = true) :
    canConvert s = false ∧ startConvert s resp = (s, none) := by
  have hc : canConvert s = false := by simp [canConvert, h]
  refine ⟨hc, ?_⟩
  simp [startConvert, startConvertRequest, hc]

/-- Witness for C1 at a concrete busy state. -/
theorem start_rejected_while_converting_witness :
    canConvert busyState = false ∧ startConvert busyState none = (busyState, none) :=
  start_rejected_while_converting busyState none rfl

/-- C6: `togglePause` invokes exactly the operation valid for the current
pause flag: when paused it invokes only `resume_conversion` and clears the
flag, otherwise only `pause_conversion` and sets it; a single call never
invokes more than one command. -/
theorem togglePause_dispatch :
    togglePause true = ([js "resume_conversion"], false) ∧
    togglePause false = ([js "pause_conversion"], true) ∧
    ∀ b : Bool, (togglePause b).1.length = 1 := by
  refine ⟨rfl, rfl, fun b => ?_⟩
  cases b <;> rfl

/-- C10: `cancelConvert` clears exactly the job-progress state
(`isConverting`, `isPaused`, `progress`) and leaves the results list and
every form field untouched, while invoking `cancel_conversion`. -/
theorem cancelConvert_resets_only_progress (s : AppState) :
    (cancelConvert s).1.isConverting = false ∧
    (cancelConvert s).1.isPaused = false ∧
    (cancelConvert s).1.progress = none ∧
    (cancelConvert s).1.results = s.results ∧
    (cancelConvert s).1.inputPath = s.inputPath ∧
    (cancelConvert s).1.inputPaths = s.inputPaths ∧
    (cancelConvert s).1.isFolder = s.isFolder ∧
    (cancelConvert s).1.outputDir = s.outputDir ∧
    (cancelConvert s).1.outputName = s.outputName ∧
    (cancelConvert s).1.fps = s.fps ∧
    (cancelConvert s).1.loopCount = s.loopCount ∧
    (cancelConvert s).1.formats = s.formats ∧
    (cancelConvert s).1.useLocalCompression = s.useLocalCompression ∧
    (cancelConvert s).1.compressionQuality = s.compressionQuality ∧
    (cancelConvert s).1.isEditingCompression = s.isEditingCompression ∧
    (cancelConvert s).1.tempCompressionValue = s.tempCompressionValue ∧
    (cancelConvert s).1.scanResult = s.scanResult ∧
    (cancelConvert s).2 = js "cancel_conversion" :=
  ⟨rfl, rfl, rfl, rfl, rfl, rfl, rfl, rfl, rfl, rfl, rfl, rfl, rfl, rfl, rfl, rfl, rfl, rfl⟩

/-- C9: toggling a format twice restores the original membership, and from
the initial `['apng']` list any toggle sequence over the supported formats
keeps the list a duplicate-free subset of the supported formats. -/
theorem toggleFormat_involution_invariant :
    (∀ (f : JSString) (l : List JSString) (x : JSString),
      x ∈ toggleFormat f (toggleFormat f l) ↔ x ∈ l) ∧
    (∀ evs : List JSString, (∀ e ∈ evs, e ∈ supportedFormats) →
      (runToggles evs [js "apng"]).Nodup ∧
      ∀ x ∈ runToggles evs [js "apng"], x ∈ supportedFormats) := by
  constructor
  · exact toggleFormat_twice_mem
  · intro evs h
    exact runToggles_inv supportedFormats evs [js "apng"] (by decide) (by decide) h

/-- Witness for C9 at concrete toggle sequences. -/
theorem toggleFormat_involution_invariant_witness :
    ((js "webp") ∈ toggleFormat (js "webp") (toggleFormat (js "webp") [js "apng"]) ↔
      (js "webp") ∈ [js "apng"]) ∧
    ((runToggles [js "webp", js "gif", js "webp"] [js "apng"]).Nodup ∧
      ∀ x ∈ runToggles [js "webp", js "gif", js "webp"] [js "apng"],
        x ∈ supportedFormats) :=
  ⟨toggleFormat_involution_invariant.1 (js "webp") [js "apng"] (js "webp"),
   toggleFormat_involution_invariant.2 [js "webp", js "gif", js "webp"] (by decide)⟩

/-! ### startConvert and scan-call lemmas -/

theorem startConvert_snd (s : AppState) (resp : Option (List ConvertResult)) :
    (startConvert s resp).2 = startConvertRequest s := by
  unfold startConvert
  cases h : startConvertRequest s <;> simp

theorem ne_nil_of_isEmpty_false {α : Type} {l : List α} (h : l.isEmpty = false) : l ≠ [] := by
  intro hnil
  rw [hnil] at h
  exact absurd h (by simp)

theorem finite_not_jle {n : JSNum} {c : ℚ} (hfin : n.isFinite = true)
    (hle : n.jle c = false) : ∃ q : ℚ, n = .fin q ∧ c < q := by
  cases n with
  | fin q =>
    refine ⟨q, rfl, ?_⟩
    simp only [JSNum.jle, decide_eq_false_iff_not] at hle
    exact lt_of_not_le hle
  | nan => simp [JSNum.isFinite] at hfin
  | posInf => simp [JSNum.isFinite] at hfin
  | negInf => simp [JSNum.isFinite] at hfin

theorem finite_not_jlt {n : JSNum} {c : ℚ} (hfin : n.isFinite = true)
    (hlt : n.jlt c = false) : ∃ q : ℚ, n = .fin q ∧ c ≤ q := by
  cases n with
  | fin q =>
    refine ⟨q, rfl, ?_⟩
    simp only [JSNum.jlt, decide_eq_false_iff_not] at hlt
    exact le_of_not_lt hlt
  | nan => simp [JSNum.isFinite] at hfin
  | posInf => simp [JSNum.isFinite] at hfin
  | negInf => simp [JSNum.isFinite] at hfin

theorem dedupFirstAux_sublist (l : List JSString) :
    ∀ seen : List JSString, (dedupFirstAux l seen).Sublist l := by
  induction l with
  | nil =>
    intro seen
    simp [dedupFirstAux]
  | cons x xs ih =>
    intro seen
    unfold dedupFirstAux
    by_cases hx : x ∈ seen
    · rw [if_pos hx]
      exact (ih seen).trans (List.sublist_cons_self x xs)
    · rw [if_neg hx]
      exact (ih (x :: seen)).cons₂ x

theorem dedupFirstAux_of_nodup (l : List JSString) :
    ∀ seen : List JSString, l.Nodup → (∀ x ∈ l, x ∉ seen) →
      dedupFirstAux l seen = l := by
  induction l with
  | nil =>
    intro seen _ _
    rfl
  | cons x xs ih =>
    intro seen hnd hdisj
    unfold dedupFirstAux
    rw [if_neg (hdisj x (by simp))]
    congr 1
    refine ih (x :: seen) (List.Nodup.of_cons hnd) ?_
    intro y hy
    simp only [List.mem_cons]
    rintro (rfl | hys)
    · exact (List.nodup_cons.mp hnd).1 hy
    · exact hdisj y (by simp [hy]) hys

theorem dedupFirst_sublist (l : List JSString) : (dedupFirst l).Sublist l :=
  dedupFirstAux_sublist l []

theorem dedupFirst_of_nodup {l : List JSString} (h : l.Nodup) : dedupFirst l = l :=
  dedupFirstAux_of_nodup l [] h (by simp)

theorem dedupFirst_ne_nil {l : List JSString} (h : l ≠ []) : dedupFirst l ≠ [] := by
  cases l with
  | nil => exact absurd rfl h
  | cons x xs =>
    unfold dedupFirst dedupFirstAux
    rw [if_neg (by simp)]
    simp

/-- C2: `startConvert` submits a request only when `fps` parses to a finite
number strictly above `0`, `loopCount` parses to a finite number at least
`0`, the formats list is non-empty, the output directory is non-blank after
trimming, and an input path or path list is present for the current mode;
whenever any of these fails no request is submitted. -/
theorem startConvert_requires_validation (s : AppState)
    (resp : Option (List ConvertResult))
    (h : ((startConvert s resp).2).isSome = true) :
    (∃ q : ℚ, jsStrToNum s.fps = .fin q ∧ 0 < q) ∧
    (∃ q : ℚ, jsStrToNum s.loopCount = .fin q ∧ 0 ≤ q) ∧
    s.formats ≠ [] ∧
    jsTrim s.outputDir ≠ [] ∧
    (s.isFolder = true → jsTrim s.inputPath ≠ []) ∧
    (s.isFolder = false → (s.inputPaths ≠ [] ∨ jsTrim s.inputPath ≠ [])) := by
  rw [startConvert_snd] at h
  have hc : canConvert s = true := by
    cases hcc : canConvert s
    · rw [startConvertRequest, if_neg (by simp [hcc])] at h
      simp at h
    · rfl
  simp only [canConvert, Bool.and_eq_true, Bool.not_eq_true'] at hc
  obtain ⟨⟨⟨⟨⟨-, hinput⟩, hdir⟩, hfmt⟩, hfpsfin, hfpsle⟩, hloopfin, hlooplt⟩ := hc
  refine ⟨?_, ?_, ?_, ?_, ?_, ?_⟩
  · exact finite_not_jle hfpsfin hfpsle
  · exact finite_not_jlt hloopfin hlooplt
  · intro hnil
    rw [hnil] at hfmt
    exact absurd hfmt (by decide)
  · exact ne_nil_of_isEmpty_false hdir
  · intro hf
    rw [hf, if_pos rfl] at hinput
    simp only [Bool.not_eq_true'] at hinput
    exact ne_nil_of_isEmpty_false hinput
  · intro hf
    rw [hf] at hinput
    rw [if_neg (by simp)] at hinput
    simp only [Bool.or_eq_true, Bool.not_eq_true'] at hinput
    rcases hinput with hp | hp
    · exact Or.inl (ne_nil_of_isEmpty_false hp)
    · exact Or.inr (ne_nil_of_isEmpty_false hp)

/-- Witness for C2 at a concrete convertible state. -/
theorem startConvert_requires_validation_witness :
    (∃ q : ℚ, jsStrToNum convertibleState.fps = .fin q ∧ 0 < q) ∧
    (∃ q : ℚ, jsStrToNum convertibleState.loopCount = .fin q ∧ 0 ≤ q) ∧
    convertibleState.formats ≠ [] ∧
    jsTrim convertibleState.outputDir ≠ [] ∧
    (convertibleState.isFolder = true → jsTrim convertibleState.inputPath ≠ []) ∧
    (convertibleState.isFolder = false →
      (convertibleState.inputPaths ≠ [] ∨ jsTrim convertibleState.inputPath ≠ [])) :=
  startConvert_requires_validation convertibleState none (by decide)

/-- C4 counterexample: from a convertible state with the initial quality
`'0'`, the submitted request carries `compressionQuality = 0`, which is
outside the spec range `1..=100`. -/
theorem request_quality_zero_counterexample :
    ((startConvert convertibleState none).2).map (fun r => r.compressionQuality)
      = some (.fin 0) ∧
    qualityInSpecRange (.fin 0) = false := by
  constructor
  · decide
  · decide

/-- C4 (amended): every request `startConvert` submits carries a
`compressionQuality` in `0..=100`, given the digit-string invariant the
compression controls maintain on the quality field; the spec's lower bound
`1` is not enforced — `0` (compression off) is submitted as-is. -/
theorem request_quality_in_range (s : AppState) (resp : Option (List ConvertResult))
    (req : ConversionRequest)
    (hd : ∀ c ∈ s.compressionQuality, c.isDigit = true)
    (hb : digitsVal s.compressionQuality ≤ 100)
    (hreq : (startConvert s resp).2 = some req) :
    ∃ q : ℚ, req.compressionQuality = .fin q ∧ 0 ≤ q ∧ q ≤ 100 := by
  rw [startConvert_snd] at hreq
  unfold startConvertRequest at hreq
  cases hcc : canConvert s
  · rw [hcc] at hreq
    simp at hreq
  · rw [hcc] at hreq
    rw [if_pos rfl] at hreq
    have hfield : req.compressionQuality = jsStrToNum s.compressionQuality := by
      cases Option.some.inj hreq
      rfl
    refine ⟨(digitsVal s.compressionQuality : ℚ), ?_, Nat.cast_nonneg _, ?_⟩
    · rw [hfield, jsStrToNum_of_digits hd, if_pos (by omega)]
    · exact_mod_cast hb

/-- Witness for the amended C4 at a concrete state and request. -/
theorem request_quality_in_range_witness :
    ∃ q : ℚ, convertibleRequest.compressionQuality = .fin q ∧ 0 ≤ q ∧ q ≤ 100 :=
  request_quality_in_range convertibleState none convertibleRequest
    (by decide) (by decide) (by decide)

/-- C5 counterexample: with a duplicated picked list the scan receives the
deduplicated list, so the `inputPaths` argument is not the picked list
verbatim. -/
theorem pickInput_dedups_duplicates :
    (pickInputScan [js "/a.png", js "/a.png"]).map (fun c => c.inputPaths)
      = some (some [js "/a.png"]) ∧
    [js "/a.png"] ≠ [js "/a.png", js "/a.png"] := by
  constructor
  · decide
  · decide

/-- C5 (amended): in file mode the scan receives the picked list after
first-occurrence deduplication (`Array.from(new Set(…))`) and otherwise
verbatim: the relative order is preserved (the passed list is a sublist of
the picked list, never re-sorted), and a duplicate-free picked list — as a
file dialog returns — is passed exactly as given. -/
theorem pickInput_scan_order (picked : List JSString) (hne : picked ≠ []) :
    ∃ call : ScanCall, pickInputScan picked = some call ∧
      call.inputMode = js "file" ∧
      call.inputPaths = some (dedupFirst picked) ∧
      (dedupFirst picked).Sublist picked ∧
      (picked.Nodup → dedupFirst picked = picked) := by
  have hd := dedupFirst_ne_nil hne
  unfold pickInputScan
  rw [if_pos hd]
  unfold scanFiles
  rw [if_neg (by simp), if_neg (by simp [hd])]
  exact ⟨_, rfl, rfl, rfl, dedupFirst_sublist picked, fun h => dedupFirst_of_nodup h⟩

/-- Witness for the amended C5 at a concrete picked list. -/
theorem pickInput_scan_order_witness :
    ∃ call : ScanCall, pickInputScan [js "/a.png", js "/b.png"] = some call ∧
      call.inputMode = js "file" ∧
      call.inputPaths = some (dedupFirst [js "/a.png", js "/b.png"]) ∧
      (dedupFirst [js "/a.png", js "/b.png"]).Sublist [js "/a.png", js "/b.png"] ∧
      ([js "/a.png", js "/b.png"].Nodup →
        dedupFirst [js "/a.png", js "/b.png"] = [js "/a.png", js "/b.png"]) :=
  pickInput_scan_order [js "/a.png", js "/b.png"] (by decide)

/-! ### Path-splitting and base-name lemmas -/

theorem splitSeps_cons_sep {c : Char} (rest : JSString) (hc : isSep c = true) :
    splitSeps (c :: rest) = [] :: splitSeps rest := by
  simp only [splitSeps]
  rw [if_pos hc]

theorem splitSeps_cons_not_sep {c : Char} (rest : JSString) (hc : isSep c = false) :
    splitSeps (c :: rest) =
      (c :: (splitSeps rest).headD []) :: (splitSeps rest).tail := by
  simp only [splitSeps]
  rw [if_neg (by simp [hc])]

theorem splitSeps_ne_nil (s : JSString) : splitSeps s ≠ [] := by
  cases s with
  | nil => simp [splitSeps]
  | cons c rest =>
    unfold splitSeps
    split <;> simp

theorem splitSeps_append_two (dir fn : JSString) :
    2 ≤ (splitSeps (dir ++ '/' :: fn)).length := by
  induction dir with
  | nil =>
    rw [List.nil_append, splitSeps_cons_sep fn (by decide)]
    cases h : splitSeps fn with
    | nil => exact absurd h (splitSeps_ne_nil fn)
    | cons hh tt => simp
  | cons c dir ih =>
    rw [List.cons_append]
    by_cases hc : isSep c = true
    · rw [splitSeps_cons_sep _ hc]
      simp only [List.length_cons]
      omega
    · rw [splitSeps_cons_not_sep _ (by simpa using hc)]
      simp only [List.length_cons, List.length_tail]
      omega

theorem getLast?_cons_ne {α : Type} (a : α) {l : List α} (h : l ≠ []) :
    (a :: l).getLast? = l.getLast? := by
  cases l with
  | nil => exact absurd rfl h
  | cons b t => exact List.getLast?_cons_cons

theorem splitSeps_getLast_append (dir fn : JSString) :
    (splitSeps (dir ++ '/' :: fn)).getLast? = (splitSeps fn).getLast? := by
  induction dir with
  | nil =>
    rw [List.nil_append, splitSeps_cons_sep fn (by decide),
      getLast?_cons_ne _ (splitSeps_ne_nil fn)]
  | cons c dir ih =>
    rw [List.cons_append]
    by_cases hc : isSep c = true
    · rw [splitSeps_cons_sep _ hc, getLast?_cons_ne _ (splitSeps_ne_nil _)]
      exact ih
    · rw [splitSeps_cons_not_sep _ (by simpa using hc)]
      have h2 := splitSeps_append_two dir fn
      cases h : splitSeps (dir ++ '/' :: fn) with
      | nil => exact absurd h (splitSeps_ne_nil _)
      | cons hh tt =>
        rw [h] at ih h2
        have htt : tt ≠ [] := by
          cases tt with
          | nil => simp at h2
          | cons a b => simp
        simp only [List.headD_cons, List.tail_cons]
        rw [getLast?_cons_ne _ htt, ← getLast?_cons_ne hh htt]
        exact ih

theorem splitSeps_no_sep {fn : JSString} (h : ∀ c ∈ fn, isSep c = false) :
    splitSeps fn = [fn] := by
  induction fn with
  | nil => rfl
  | cons c rest ih =>
    rw [splitSeps_cons_not_sep rest (h c (by simp)),
      ih fun x hx => h x (by simp [hx])]
    rfl

theorem takeWhile_append_stop {p : Char → Bool} {l1 : JSString} (c : Char) (l2 : JSString)
    (h1 : ∀ a ∈ l1, p a = true) (hc : p c = false) :
    (l1 ++ c :: l2).takeWhile p = l1 := by
  induction l1 with
  | nil => simp [List.takeWhile_cons, hc]
  | cons a l1 ih =>
    simp [List.takeWhile_cons, h1 a (by simp),
      ih fun x hx => h1 x (by simp [hx])]

theorem dropWhile_append_stop {p : Char → Bool} {l1 : JSString} (c : Char) (l2 : JSString)
    (h1 : ∀ a ∈ l1, p a = true) (hc : p c = false) :
    (l1 ++ c :: l2).dropWhile p = c :: l2 := by
  induction l1 with
  | nil => simp [List.dropWhile_cons, hc]
  | cons a l1 ih =>
    simp [List.dropWhile_cons, h1 a (by simp),
      ih fun x hx => h1 x (by simp [hx])]

theorem stripExt_append_ext (pre ext0 : JSString) (hne : ext0 ≠ [])
    (hext : ∀ c ∈ ext0, extChar c = true) :
    stripExt (pre ++ '.' :: ext0) = pre := by
  unfold stripExt
  have hrev : (pre ++ '.' :: ext0).reverse = ext0.reverse ++ '.' :: pre.reverse := by
    simp
  rw [hrev,
    takeWhile_append_stop _ _ (fun a ha => hext a (List.mem_reverse.mp ha)) (by decide),
    dropWhile_append_stop _ _ (fun a ha => hext a (List.mem_reverse.mp ha)) (by decide)]
  rw [if_pos ⟨by simpa using hne, rfl⟩]
  simp

theorem digit_not_sep (c : Char) (h : c.isDigit = true) : isSep c = false := by
  cases hs : isSep c
  · rfl
  · exfalso
    unfold isSep at hs
    simp only [Bool.or_eq_true, beq_iff_eq] at hs
    rcases hs with rfl | rfl <;> exact absurd h (by decide)

theorem stripSeq_append_seq (stem ds : JSString) {sep : Char}
    (hsep : sep = '_' ∨ sep = '-') (hds_ne : ds ≠ [])
    (hds : ∀ c ∈ ds, c.isDigit = true) :
    stripSeq (stem ++ sep :: ds) = stem := by
  unfold stripSeq
  have hrev : (stem ++ sep :: ds).reverse = ds.reverse ++ sep :: stem.reverse := by
    simp
  have hsepd : sep.isDigit = false := by
    rcases hsep with rfl | rfl <;> decide
  rw [hrev,
    takeWhile_append_stop _ _ (fun a ha => hds a (List.mem_reverse.mp ha)) hsepd,
    dropWhile_append_stop _ _ (fun a ha => hds a (List.mem_reverse.mp ha)) hsepd]
  rw [if_pos ⟨by simpa using hds_ne, by rcases hsep with rfl | rfl <;> simp⟩]
  simp

theorem getBaseName_general (dir stem ds ext0 : JSString) (sep : Char)
    (hstem : ∀ c ∈ stem, isSep c = false)
    (hsep : sep = '_' ∨ sep = '-')
    (hds_ne : ds ≠ []) (hds : ∀ c ∈ ds, c.isDigit = true)
    (hext_ne : ext0 ≠ [])
    (hext : ∀ c ∈ ext0, extChar c = true ∧ isSep c = false) :
    getBaseName (dir ++ '/' :: (stem ++ sep :: (ds ++ '.' :: ext0))) = stem := by
  have hfn_nosep : ∀ c ∈ stem ++ sep :: (ds ++ '.' :: ext0), isSep c = false := by
    intro c hc
    rcases List.mem_append.mp hc with hc | hc
    · exact hstem c hc
    · rcases List.mem_cons.mp hc with rfl | hc
      · rcases hsep with rfl | rfl <;> decide
      · rcases List.mem_append.mp hc with hc | hc
        · exact digit_not_sep c (hds c hc)
        · rcases List.mem_cons.mp hc with rfl | hc
          · decide
          · exact (hext c hc).2
  have hfn_ne : stem ++ sep :: (ds ++ '.' :: ext0) ≠ [] := by simp
  have hlast : (splitSeps (dir ++ '/' :: (stem ++ sep :: (ds ++ '.' :: ext0)))).getLast?
      = some (stem ++ sep :: (ds ++ '.' :: ext0)) := by
    rw [splitSeps_getLast_append, splitSeps_no_sep hfn_nosep]
    simp
  unfold getBaseName
  rw [hlast]
  rw [show jsOrStr ((some (stem ++ sep :: (ds ++ '.' :: ext0))).getD [])
      (dir ++ '/' :: (stem ++ sep :: (ds ++ '.' :: ext0)))
      = stem ++ sep :: (ds ++ '.' :: ext0) by simp [jsOrStr, hfn_ne]]
  rw [show stem ++ sep :: (ds ++ '.' :: ext0) = (stem ++ sep :: ds) ++ '.' :: ext0 by simp]
  rw [stripExt_append_ext _ _ hext_ne fun c hc => (hext c hc).1]
  exact stripSeq_append_seq stem ds hsep hds_ne hds

/-- C3 counterexample: with a user-supplied output name in place, the
auto-name effect still overwrites it once a scan result with a base size is
present, contradicting the claim that a supplied name is not overwritten. -/
theorem autoName_overwrites_user_name :
    userNamedState.outputName = js "myName" ∧
    (autoNameEffect userNamedState).outputName = js "frame_3x4" ∧
    (autoNameEffect userNamedState).outputName ≠ userNamedState.outputName := by
  refine ⟨rfl, ?_, ?_⟩ <;> decide

/-- C3 (amended): whenever a scan result with a uniform base size is
present, the effect stores `{base}_{w}x{h}` where the base is
`getBaseName` of the first input (regardless of any existing output name);
`getBaseName` takes the last path component, strips the extension and one
trailing `_`/`-`-prefixed digit run; without a base size the state is left
unchanged. -/
theorem autoName_derivation :
    (∀ (s : AppState) (sc : ScanResult) (w h : ℕ),
      s.scanResult = some sc → sc.baseSize = some (w, h) →
      (autoNameEffect s).outputName =
        (if s.isFolder then getBaseName s.inputPath
         else getBaseName (jsOrStr (s.inputPaths.headD []) s.inputPath))
          ++ '_' :: (natChars w ++ 'x' :: natChars h)) ∧
    (∀ (dir stem ds ext0 : JSString) (sep : Char),
      (∀ c ∈ stem, isSep c = false) → (sep = '_' ∨ sep = '-') →
      ds ≠ [] → (∀ c ∈ ds, c.isDigit = true) →
      ext0 ≠ [] → (∀ c ∈ ext0, extChar c = true ∧ isSep c = false) →
      getBaseName (dir ++ '/' :: (stem ++ sep :: (ds ++ '.' :: ext0))) = stem) ∧
    (∀ s : AppState, s.scanResult = none → autoNameEffect s = s) := by
  refine ⟨?_, getBaseName_general, ?_⟩
  · intro s sc w h h1 h2
    simp [autoNameEffect, h1, h2]
  · intro s h
    simp [autoNameEffect, h]

/-- Witness for the amended C3 at concrete states and paths. -/
theorem autoName_derivation_witness :
    ((autoNameEffect userNamedState).outputName =
      (if userNamedState.isFolder then getBaseName userNamedState.inputPath
       else getBaseName (jsOrStr (userNamedState.inputPaths.headD []) userNamedState.inputPath))
        ++ '_' :: (natChars 3 ++ 'x' :: natChars 4)) ∧
    getBaseName (js "frames" ++ '/' :: (js "frame" ++ '_' :: (js "0001" ++ '.' :: js "png")))
      = js "frame" ∧
    autoNameEffect initialState = initialState :=
  ⟨autoName_derivation.1 userNamedState _ 3 4 rfl rfl,
   autoName_derivation.2.1 (js "frames") (js "frame") (js "0001") (js "png") '_'
     (by decide) (Or.inl rfl) (by decide) (by decide) (by decide) (by decide),
   autoName_derivation.2.2 initialState rfl⟩

/-! ### Progress rendering (C7) -/

/-- C7: for every received progress event — whose `percent`, when present,
lies in the spec's clamped `[0,100]` range, or is missing/`NaN` — the
rendered bar width and rounded percent text lie in `[0,100]`; the width is
`min(percent || 0, 100)`, a missing percent renders as `0`, and the
`current / total` pair is shown exactly when `total > 0`. -/
theorem progress_display_in_range (p : ConvertProgressEvent)
    (h : ProgressEventWellFormed p) :
    0 ≤ progressBarWidth p ∧ progressBarWidth p ≤ 100 ∧
    0 ≤ progressPercentText p ∧ progressPercentText p ≤ 100 ∧
    progressBarWidth p = min (jsOrZero p.percent) 100 ∧
    (p.percent = none → progressBarWidth p = 0 ∧ progressPercentText p = 0) ∧
    (showsFraction p = true ↔ 0 < p.total) := by
  have hb : 0 ≤ jsOrZero p.percent ∧ jsOrZero p.percent ≤ 100 := by
    cases hp : p.percent with
    | none => simp [jsOrZero]
    | some v => simpa [jsOrZero] using h v hp
  obtain ⟨hb0, hb1⟩ := hb
  have h100 : (⌊(201 / 2 : ℚ)⌋ : ℤ) = 100 := by
    rw [Int.floor_eq_iff]
    constructor <;> norm_num
  refine ⟨?_, ?_, ?_, ?_, rfl, ?_, ?_⟩
  · exact le_min hb0 (by norm_num)
  · exact min_le_right _ _
  · show (0 : ℤ) ≤ ⌊jsOrZero p.percent + 1 / 2⌋
    rw [Int.le_floor]
    push_cast
    linarith
  · show ⌊jsOrZero p.percent + 1 / 2⌋ ≤ (100 : ℤ)
    rw [← h100]
    exact Int.floor_le_floor (by linarith)
  · intro hp
    constructor
    · show min (jsOrZero p.percent) 100 = 0
      rw [hp]
      show min (0 : ℚ) 100 = 0
      simp
    · show ⌊jsOrZero p.percent + 1 / 2⌋ = 0
      rw [hp]
      show ⌊(0 : ℚ) + 1 / 2⌋ = 0
      rw [Int.floor_eq_iff]
      constructor <;> norm_num
  · unfold showsFraction
    simp

/-- Witness for C7 at a concrete mid-encode event. -/
theorem progress_display_in_range_witness :
    0 ≤ progressBarWidth pEvent50 ∧ progressBarWidth pEvent50 ≤ 100 ∧
    0 ≤ progressPercentText pEvent50 ∧ progressPercentText pEvent50 ≤ 100 ∧
    progressBarWidth pEvent50 = min (jsOrZero pEvent50.percent) 100 ∧
    (pEvent50.percent = none → progressBarWidth pEvent50 = 0 ∧
      progressPercentText pEvent50 = 0) ∧
    (showsFraction pEvent50 = true ↔ 0 < pEvent50.total) :=
  progress_display_in_range pEvent50 (fun v hv => by
    have hv2 : some (50 : ℚ) = some v := hv
    injection hv2 with hv3
    subst hv3
    constructor <;> norm_num)

/-! ### Compression-quality invariant (C8) -/

theorem jsNumToString_natCast (n : ℕ) :
    jsNumToString (.fin ((n : ℕ) : ℚ)) = natChars n := by
  have hden : ((n : ℕ) : ℚ).den = 1 := rfl
  have hnum0 : (0 : ℤ) ≤ ((n : ℕ) : ℚ).num := Int.natCast_nonneg n
  show (if ((n : ℕ) : ℚ).den = 1 ∧ 0 ≤ ((n : ℕ) : ℚ).num
    then natChars ((n : ℕ) : ℚ).num.toNat else []) = natChars n
  rw [if_pos ⟨hden, hnum0⟩]
  rfl

theorem qualityInvariant_of {st : CompState} (h1 : st.compressionQuality ≠ [])
    (h2 : ∀ c ∈ st.compressionQuality, c.isDigit = true)
    (h3 : digitsVal st.compressionQuality ≤ 100) : qualityInvariant st = true := by
  unfold qualityInvariant
  simp only [Bool.and_eq_true, Bool.not_eq_true']
  refine ⟨⟨?_, ?_⟩, ?_⟩
  · cases hq : st.compressionQuality with
    | nil => exact absurd hq h1
    | cons a l => simp
  · exact List.all_eq_true.mpr h2
  · exact decide_eq_true h3

theorem commitEditor_inv {st : CompState} (h : CompInv st) : CompInv (commitEditor st) := by
  obtain ⟨h1, h2, h3, h4⟩ := h
  unfold commitEditor
  rw [jsStrToNum_of_digits h4]
  by_cases hv : digitsVal st.tempCompressionValue < 2 ^ 1024
  · rw [if_pos hv]
    by_cases hle : digitsVal st.tempCompressionValue ≤ 100
    · rw [if_pos ⟨by simp [JSNum.jge], by simp [JSNum.jle]; exact_mod_cast hle⟩]
      by_cases hz : (JSNum.fin ((digitsVal st.tempCompressionValue : ℕ) : ℚ)) = .fin 0
      · rw [if_pos hz]
        refine ⟨?_, ?_, ?_, h4⟩
        · show js "0" ≠ []
          decide
        · show ∀ c ∈ js "0", c.isDigit = true
          decide
        · show digitsVal (js "0") ≤ 100
          decide
      · rw [if_neg hz, jsNumToString_natCast]
        obtain ⟨hne, hdig, hval⟩ := natChars_spec (digitsVal st.tempCompressionValue)
        exact ⟨hne, hdig, by rw [hval]; exact hle, h4⟩
    · rw [if_neg (by
        rintro ⟨-, hj⟩
        simp only [JSNum.jle, decide_eq_true_eq] at hj
        exact hle (by exact_mod_cast hj))]
      exact ⟨h1, h2, h3, h2⟩
  · rw [if_neg hv]
    rw [if_neg (by rintro ⟨-, hj⟩; simp [JSNum.jle] at hj)]
    exact ⟨h1, h2, h3, h2⟩

theorem compStep_inv {st : CompState} {e : CompEvent} (h : CompInv st)
    (hok : sliderOk e = true) : CompInv (compStep st e) := by
  obtain ⟨h1, h2, h3, h4⟩ := h
  cases e with
  | slider n =>
    have hn : n ≤ 100 := by simpa [sliderOk] using hok
    obtain ⟨hne, hdig, hval⟩ := natChars_spec n
    have hnum : jsStrToNum (natChars n) = .fin ((n : ℕ) : ℚ) := by
      rw [jsStrToNum_of_digits hdig, hval, if_pos (by omega)]
    show CompInv { st with compressionQuality := jsNumToString (jsStrToNum (natChars n)) }
    rw [hnum, jsNumToString_natCast]
    exact ⟨hne, hdig, by rw [hval]; exact hn, h4⟩
  | clickToEdit => exact ⟨h1, h2, h3, h2⟩
  | editorInput raw =>
    show CompInv (if _ then _ else _)
    split
    · exact ⟨h1, h2, h3, fun c hc => List.of_mem_filter hc⟩
    · exact ⟨h1, h2, h3, h4⟩
  | editorBlur => exact commitEditor_inv ⟨h1, h2, h3, h4⟩
  | editorEnter => exact commitEditor_inv ⟨h1, h2, h3, h4⟩
  | editorEscape => exact ⟨h1, h2, h3, h2⟩

theorem foldl_compStep_inv (evs : List CompEvent) :
    ∀ st : CompState, CompInv st → (∀ e ∈ evs, sliderOk e = true) →
      CompInv (evs.foldl compStep st) := by
  induction evs with
  | nil =>
    intro st h _
    exact h
  | cons e evs ih =>
    intro st h hok
    exact ih (compStep st e) (compStep_inv h (hok e (by simp)))
      fun x hx => hok x (by simp [hx])

/-- C8: starting from the initial `'0'`, every sequence of slider moves
(DOM-clamped to `0..100`), editor keystrokes, commits (blur/Enter) and
Escape reverts keeps `compressionQuality` a non-empty decimal digit string
whose value is between `0` and `100`. -/
theorem compression_quality_invariant (evs : List CompEvent)
    (hok : ∀ e ∈ evs, sliderOk e = true) :
    qualityInvariant (runComp evs) = true := by
  obtain ⟨h1, h2, h3, -⟩ :=
    foldl_compStep_inv evs initComp ⟨by decide, by decide, by decide, by decide⟩ hok
  exact qualityInvariant_of h1 h2 h3

/-- Witness for C8 on a concrete interaction sequence. -/
theorem compression_quality_invariant_witness :
    qualityInvariant (runComp
      [.slider 37, .clickToEdit, .editorInput (js "8x5"), .editorEnter,
       .clickToEdit, .editorInput (js "999"), .editorBlur, .editorEscape]) = true :=
  compression_quality_invariant _ (by decide)

end FrameConverter
